import Mathlib

/-!
Verification of the load-balancing allocator in
`Assignment2_Load_Balancing/src/load_balancer.py`.

The Python source is shallowly embedded below.  Python `float` and `int`
arithmetic is modelled over `ℚ` (all constants in the program are exact
decimal fractions, so every computation the allocator performs is exact).
Python dictionaries (`self.nodes`, `self.allocations`), which preserve
insertion order and have unique keys, are modelled as association lists
`List (String × _)` iterated in order; key uniqueness is an explicit
hypothesis (`Nodup`) where a proof needs it.
-/

/-- Embeds the dataclass `Node` of `load_balancer.py`. -/
structure Node where
  name : String
  latency : ℚ
  throughput : ℚ
  packet_loss : ℚ
  cpu : ℚ
  memory : ℚ
  services : List String
deriving DecidableEq

/-- Embeds the dataclass `Process` of `load_balancer.py`. -/
structure Process where
  process_id : String
  cpu_requirement : ℚ
  memory_requirement : ℚ
  service_type : String
  priority : ℤ
deriving DecidableEq

/-- Embeds `Node.calculate_load_score`:
`(cpu/100)*0.6 + (memory/20)*0.3 + (latency/30)*0.1`. -/
def calculate_load_score (n : Node) : ℚ :=
  (n.cpu / 100) * 0.6 + (n.memory / 20) * 0.3 + (n.latency / 30) * 0.1

/-- Embeds `Node.has_capacity`:
`self.cpu + cpu_needed <= 90 and self.memory + memory_needed <= 18`. -/
def has_capacity (n : Node) (cpu_needed memory_needed : ℚ) : Bool :=
  decide (n.cpu + cpu_needed ≤ 90 ∧ n.memory + memory_needed ≤ 18)

/-- Embeds Python's substring test `needle in hay` on lists of characters. -/
def charSub (needle : List Char) : List Char → Bool
  | [] => needle.isEmpty
  | c :: cs => needle.isPrefixOf (c :: cs) || charSub needle cs

/-- Embeds Python's substring test `needle in hay` on strings. -/
def strSub (needle hay : String) : Bool :=
  charSub needle.toList hay.toList

/-- Embeds Python's `str.lower()`: lowercase every character. -/
def strLower (s : String) : String :=
  String.mk (s.data.map Char.toLower)

/-- Embeds the `service_match` expression of
`ProcessAllocator._allocate_single_process`:
`any(svc in process.service_type.lower() for svc in [s.lower() for s in node.services])`.
Note the single direction: a (lowercased) node service name must occur as a
substring of the (lowercased) workload `service_type`. -/
def service_match (p : Process) (n : Node) : Bool :=
  (n.services.map (fun s => strLower s)).any
    (fun svc => strSub svc (strLower p.service_type))

/-- Embeds the `placement_score` expression of
`ProcessAllocator._allocate_single_process`:
`load_score * 0.5 + latency_score * 0.3 + (0 if service_match else 0.2)`
with `latency_score = node.latency / 30.0`. -/
def placement_score (p : Process) (n : Node) : ℚ :=
  calculate_load_score n * 0.5 + (n.latency / 30) * 0.3 +
    (if service_match p n then 0 else 0.2)

/-- The allocator state: `self.nodes` and `self.allocations` of
`ProcessAllocator`, as insertion-ordered association lists. -/
structure AllocState where
  nodes : List (String × Node)
  allocations : List (String × List Process)
deriving DecidableEq

/-- Embeds `ProcessAllocator.__init__`: keeps the node dictionary and maps
every node name to an empty allocation list. -/
def mkState (nodes : List (String × Node)) : AllocState :=
  { nodes := nodes, allocations := nodes.map (fun kv => (kv.1, ([] : List Process))) }

/-- The candidate list built by the `for name, node in self.nodes.items()`
loop of `_allocate_single_process`: every node passing `has_capacity`,
paired with its `placement_score`. -/
def candidates (nodes : List (String × Node)) (p : Process) :
    List (String × Node × ℚ) :=
  nodes.filterMap (fun kv =>
    if has_capacity kv.2 p.cpu_requirement p.memory_requirement
    then some (kv.1, kv.2, placement_score p kv.2)
    else none)

/-- Embeds Python's `min(candidates, key=lambda x: x[2])` scan: keep the
current best and replace it only on a strictly smaller key, so the first
minimum wins. -/
def minScan (c : String × Node × ℚ) : List (String × Node × ℚ) → String × Node × ℚ
  | [] => c
  | d :: ds => minScan (if d.2.2 < c.2.2 then d else c) ds

/-- Python's `min` over the whole candidate list (`none` on the empty list,
where the Python code returns early). -/
def minCand : List (String × Node × ℚ) → Option (String × Node × ℚ)
  | [] => none
  | c :: cs => some (minScan c cs)

/-- Pointwise update of the node dictionary at a key, modelling the in-place
mutation `best_node.cpu += ...; best_node.memory += ...` of the shared
`Node` object stored under `name` in `self.nodes`. -/
def updateNodes (nodes : List (String × Node)) (name : String) (nd : Node) :
    List (String × Node) :=
  nodes.map (fun kv => if kv.1 = name then (kv.1, nd) else kv)

/-- Embeds `self.allocations[best_node_name].append(process)`. -/
def appendAlloc (allocs : List (String × List Process)) (name : String)
    (p : Process) : List (String × List Process) :=
  allocs.map (fun kv => if kv.1 = name then (kv.1, kv.2 ++ [p]) else kv)

/-- Embeds `ProcessAllocator._allocate_single_process`: build the candidate
list, return `none` ("FAILED") when it is empty, otherwise take the
minimum-score candidate, add the requirements to its `cpu`/`memory`, append
the process to its allocation list and return its name. -/
def allocate_single_process (st : AllocState) (p : Process) :
    AllocState × Option String :=
  match minCand (candidates st.nodes p) with
  | none => (st, none)
  | some (name, nd, _) =>
      ({ nodes := updateNodes st.nodes name
            { nd with cpu := nd.cpu + p.cpu_requirement,
                      memory := nd.memory + p.memory_requirement },
         allocations := appendAlloc st.allocations name p },
       some name)

/-- The `for process in sorted_processes` loop of
`ProcessAllocator.allocate_processes`: runs `_allocate_single_process` on
each workload in order, also collecting the workloads that failed placement
(those printed as `FAILED`), in processing order. -/
def alloc_loop : AllocState → List Process → AllocState × List Process
  | st, [] => (st, [])
  | st, p :: ps =>
      let res := allocate_single_process st p
      let rest := alloc_loop res.1 ps
      (rest.1, match res.2 with
               | some _ => rest.2
               | none => p :: rest.2)

/-- The sequence of chosen node names (the `best_node_name` values returned
by `_allocate_single_process`) over a run of the allocation loop; failed
placements contribute nothing. -/
def chosenNames : AllocState → List Process → List String
  | _, [] => []
  | st, p :: ps =>
      let res := allocate_single_process st p
      match res.2 with
      | some name => name :: chosenNames res.1 ps
      | none => chosenNames res.1 ps

/-- Stable insertion into a descending-priority sorted list: the inserted
element goes before the first element whose priority is not greater, so an
element inserted later (i.e. earlier in the input) precedes equal-priority
elements already present. -/
def insertDesc (x : Process) : List Process → List Process
  | [] => [x]
  | y :: ys => if x.priority < y.priority then y :: insertDesc x ys else x :: y :: ys

/-- Embeds `sorted(processes, key=lambda p: p.priority, reverse=True)`:
Python's `sorted` is documented stable, and with `reverse=True` it orders by
descending key while equal-key elements keep their input order.  `sortDesc`
implements exactly that specification as a stable insertion sort. -/
def sortDesc : List Process → List Process
  | [] => []
  | x :: xs => insertDesc x (sortDesc xs)

/-- Embeds `ProcessAllocator.allocate_processes` (its computational core:
sort by descending priority, then allocate one by one).  Returns the final
state — whose `allocations` component is the dictionary the Python method
returns — together with the list of workloads that failed placement. -/
def allocate_processes (st : AllocState) (ps : List Process) :
    AllocState × List Process :=
  alloc_loop st (sortDesc ps)

/-- The resource invariant of §3 of the specification: cpu at most 90 and
memory at most 18, for every node of the registry. -/
def nodesOk (nodes : List (String × Node)) : Prop :=
  ∀ kv ∈ nodes, kv.2.cpu ≤ 90 ∧ kv.2.memory ≤ 18

/-- The static descriptive fields of a node: everything except `cpu` and
`memory`. -/
def statics (n : Node) : String × ℚ × ℚ × ℚ × List String :=
  (n.name, n.latency, n.throughput, n.packet_loss, n.services)

/-- Pointwise comparison of two node lists: same keys in the same order,
with `cpu` and `memory` not decreasing from the first list to the second. -/
def nodesMono (old new : List (String × Node)) : Prop :=
  List.Forall₂
    (fun a b => a.1 = b.1 ∧ a.2.cpu ≤ b.2.cpu ∧ a.2.memory ≤ b.2.memory) old new

/-- The service match exactly as the specification's words describe it: the
workload's `service_type` case-insensitively contains, or is contained by
(substring match in either direction), some declared service name of the
node. -/
def service_match_spec (p : Process) (n : Node) : Bool :=
  n.services.any (fun s =>
    strSub (strLower s) (strLower p.service_type) ||
    strSub (strLower p.service_type) (strLower s))

/-- The placement-score formula as the specification's words state it, with
the service bonus granted through the bidirectional substring match. -/
def placement_score_spec (p : Process) (n : Node) : ℚ :=
  calculate_load_score n * 0.5 + (n.latency / 30) * 0.3 +
    (if service_match_spec p n then 0 else 0.2)

/-- The amended service match: a (lowercased) declared service name of the
node occurs as a substring of the (lowercased) workload `service_type` —
one direction only. -/
def service_match_amended (p : Process) (n : Node) : Bool :=
  n.services.any (fun s => strSub (strLower s) (strLower p.service_type))

/-- The placement-score formula with the amended (one-directional) service
match. -/
def placement_score_amended (p : Process) (n : Node) : ℚ :=
  calculate_load_score n * 0.5 + (n.latency / 30) * 0.3 +
    (if service_match_amended p n then 0 else 0.2)

/-- Pointwise comparison of two allocation maps: same keys in the same
order, every list of the second extends the corresponding list of the
first (existing commitments are never altered, only appended to). -/
def allocGrows (old new : List (String × List Process)) : Prop :=
  List.Forall₂ (fun a b => a.1 = b.1 ∧ ∃ l, b.2 = a.2 ++ l) old new

/-- The registry viewed through the static node fields only. -/
def staticsMap (nodes : List (String × Node)) :
    List (String × String × ℚ × ℚ × ℚ × List String) :=
  nodes.map (fun kv => (kv.1, statics kv.2))

/-- Total number of occurrences of a process across all allocation lists. -/
def totalCount (q : Process) (allocs : List (String × List Process)) : ℕ :=
  (allocs.map (fun kv => kv.2.count q)).sum

/-- Total number of placed workloads (sum of allocation-list lengths). -/
def totalLen (allocs : List (String × List Process)) : ℕ :=
  (allocs.map (fun kv => kv.2.length)).sum

/-! ### Helper lemmas -/

theorem minScan_eq_or_mem (ds : List (String × Node × ℚ)) :
    ∀ c, minScan c ds = c ∨ minScan c ds ∈ ds := by
  induction ds with
  | nil => intro c; left; rfl
  | cons d ds ih =>
      intro c
      simp only [minScan]
      rcases ih (if d.2.2 < c.2.2 then d else c) with h | h
      · rw [h]
        split
        · right; exact List.mem_cons_self _ _
        · left; rfl
      · right; exact List.mem_cons_of_mem _ h

theorem minScan_le_acc (ds : List (String × Node × ℚ)) :
    ∀ c, (minScan c ds).2.2 ≤ c.2.2 := by
  induction ds with
  | nil => intro c; exact le_refl _
  | cons d ds ih =>
      intro c
      simp only [minScan]
      refine le_trans (ih _) ?_
      split
      · exact le_of_lt (by assumption)
      · exact le_refl _

theorem minScan_le_mem (ds : List (String × Node × ℚ)) :
    ∀ c, ∀ d ∈ ds, (minScan c ds).2.2 ≤ d.2.2 := by
  induction ds with
  | nil => intro c d hd; cases hd
  | cons e ds ih =>
      intro c d hd
      simp only [minScan]
      rcases List.mem_cons.mp hd with h | h
      · subst h
        refine le_trans (minScan_le_acc _ _) ?_
        split
        · exact le_refl _
        · exact le_of_not_lt (by assumption)
      · exact ih _ d h

theorem minCand_mem {cs : List (String × Node × ℚ)} {c : String × Node × ℚ}
    (h : minCand cs = some c) : c ∈ cs := by
  cases cs with
  | nil => cases h
  | cons e es =>
      simp only [minCand, Option.some.injEq] at h
      rcases minScan_eq_or_mem es e with h' | h'
      · rw [← h, h']; exact List.mem_cons_self _ _
      · rw [← h]; exact List.mem_cons_of_mem _ h'

theorem minCand_le {cs : List (String × Node × ℚ)} {c : String × Node × ℚ}
    (h : minCand cs = some c) : ∀ d ∈ cs, c.2.2 ≤ d.2.2 := by
  cases cs with
  | nil => cases h
  | cons e es =>
      simp only [minCand, Option.some.injEq] at h
      intro d hd
      rcases List.mem_cons.mp hd with h' | h'
      · rw [← h, h']; exact minScan_le_acc _ _
      · rw [← h]; exact minScan_le_mem _ _ d h'

theorem minCand_eq_none {cs : List (String × Node × ℚ)} :
    minCand cs = none ↔ cs = [] := by
  cases cs <;> simp [minCand]

theorem mem_candidates {nodes : List (String × Node)} {p : Process}
    {x : String × Node × ℚ} :
    x ∈ candidates nodes p ↔
      ∃ kv ∈ nodes,
        has_capacity kv.2 p.cpu_requirement p.memory_requirement = true ∧
        x = (kv.1, kv.2, placement_score p kv.2) := by
  simp only [candidates, List.mem_filterMap]
  constructor
  · rintro ⟨kv, hkv, hx⟩
    by_cases hc : has_capacity kv.2 p.cpu_requirement p.memory_requirement
    · simp only [hc, if_pos] at hx
      exact ⟨kv, hkv, hc, (Option.some.injEq _ _).mp hx |>.symm⟩
    · simp [hc] at hx
  · rintro ⟨kv, hkv, hc, hx⟩
    exact ⟨kv, hkv, by simp [hc, hx]⟩

theorem updateNodes_keys (nodes : List (String × Node)) (name : String)
    (nd : Node) : (updateNodes nodes name nd).map Prod.fst = nodes.map Prod.fst := by
  induction nodes with
  | nil => rfl
  | cons kv kvs ih =>
      simp only [updateNodes, List.map_cons] at ih ⊢
      split <;> simp_all

theorem appendAlloc_keys (allocs : List (String × List Process)) (name : String)
    (p : Process) : (appendAlloc allocs name p).map Prod.fst = allocs.map Prod.fst := by
  induction allocs with
  | nil => rfl
  | cons kv kvs ih =>
      simp only [appendAlloc, List.map_cons] at ih ⊢
      split <;> simp_all

theorem mem_updateNodes {nodes : List (String × Node)} {name : String}
    {nd : Node} {kv : String × Node} (h : kv ∈ updateNodes nodes name nd) :
    kv ∈ nodes ∨ kv.2 = nd := by
  simp only [updateNodes, List.mem_map] at h
  rcases h with ⟨kv', hkv', heq⟩
  by_cases hn : kv'.1 = name
  · right; simp [hn] at heq; rw [← heq]
  · left; simp [hn] at heq; exact heq ▸ hkv'

/-- In an association list with `Nodup` keys, a key determines its value. -/
theorem assoc_value_unique {α β : Type} {l : List (α × β)} {k : α} {a b : β}
    (hnd : (l.map Prod.fst).Nodup) (ha : (k, a) ∈ l) (hb : (k, b) ∈ l) :
    a = b := by
  induction l with
  | nil => cases ha
  | cons kv kvs ih =>
      simp only [List.map_cons, List.nodup_cons] at hnd
      rcases List.mem_cons.mp ha with h1 | h1 <;> rcases List.mem_cons.mp hb with h2 | h2
      · rw [← h2] at h1; exact congrArg Prod.snd h1
      · exfalso
        apply hnd.1
        have hk : k = kv.1 := congrArg Prod.fst h1
        rw [← hk]
        exact List.mem_map.mpr ⟨(k, b), h2, rfl⟩
      · exfalso
        apply hnd.1
        have hk : k = kv.1 := congrArg Prod.fst h2
        rw [← hk]
        exact List.mem_map.mpr ⟨(k, a), h1, rfl⟩
      · exact ih hnd.2 h1 h2

/-- Pointwise relation between a list and its image under a map. -/
theorem forall2_map_self {α β : Type} {R : α → β → Prop} {l : List α}
    {f : α → β} (h : ∀ a ∈ l, R a (f a)) : List.Forall₂ R l (l.map f) := by
  induction l with
  | nil => exact List.Forall₂.nil
  | cons x xs ih =>
      exact List.Forall₂.cons (h x (List.mem_cons_self _ _))
        (ih fun a ha => h a (List.mem_cons_of_mem _ ha))

/-! ### Sorting lemmas -/

theorem insertDesc_perm (x : Process) (l : List Process) :
    List.Perm (insertDesc x l) (x :: l) := by
  induction l with
  | nil => exact List.Perm.refl _
  | cons y ys ih =>
      simp only [insertDesc]
      split
      · exact List.Perm.trans (List.Perm.cons y ih) (List.Perm.swap x y ys)
      · exact List.Perm.refl _

theorem sortDesc_perm (l : List Process) : List.Perm (sortDesc l) l := by
  induction l with
  | nil => exact List.Perm.refl _
  | cons x xs ih =>
      exact List.Perm.trans (insertDesc_perm x (sortDesc xs)) (List.Perm.cons x ih)

theorem mem_insertDesc {z x : Process} {l : List Process} :
    z ∈ insertDesc x l ↔ z = x ∨ z ∈ l := by
  rw [(insertDesc_perm x l).mem_iff, List.mem_cons]

theorem insertDesc_pairwise {x : Process} {l : List Process}
    (h : l.Pairwise (fun a b => b.priority ≤ a.priority)) :
    (insertDesc x l).Pairwise (fun a b => b.priority ≤ a.priority) := by
  induction l with
  | nil => simp [insertDesc]
  | cons y ys ih =>
      rw [List.pairwise_cons] at h
      simp only [insertDesc]
      split
      · rw [List.pairwise_cons]
        refine ⟨?_, ih h.2⟩
        intro z hz
        rcases mem_insertDesc.mp hz with hz | hz
        · subst hz; exact le_of_lt (by assumption)
        · exact h.1 z hz
      · rw [List.pairwise_cons]
        refine ⟨?_, List.pairwise_cons.mpr h⟩
        intro z hz
        rcases List.mem_cons.mp hz with hz | hz
        · subst hz; exact le_of_not_lt (by assumption)
        · exact le_trans (h.1 z hz) (le_of_not_lt (by assumption))

theorem sortDesc_pairwise (l : List Process) :
    (sortDesc l).Pairwise (fun a b => b.priority ≤ a.priority) := by
  induction l with
  | nil => simp [sortDesc]
  | cons x xs ih => exact insertDesc_pairwise ih

theorem filter_insertDesc (k : ℤ) (x : Process) (l : List Process) :
    (insertDesc x l).filter (fun q => decide (q.priority = k)) =
      if x.priority = k
      then x :: l.filter (fun q => decide (q.priority = k))
      else l.filter (fun q => decide (q.priority = k)) := by
  induction l with
  | nil => simp only [insertDesc, List.filter]; split <;> simp_all
  | cons y ys ih =>
      simp only [insertDesc]
      by_cases hxy : x.priority < y.priority
      · rw [if_pos hxy]
        by_cases hy : y.priority = k
        · have hx : ¬ x.priority = k := by omega
          simp [List.filter, hy, hx, ih]
        · simp only [List.filter_cons]
          simp [hy, ih]
      · rw [if_neg hxy]
        by_cases hx : x.priority = k <;> simp [List.filter_cons, hx]

theorem filter_sortDesc (k : ℤ) (l : List Process) :
    (sortDesc l).filter (fun q => decide (q.priority = k)) =
      l.filter (fun q => decide (q.priority = k)) := by
  induction l with
  | nil => rfl
  | cons x xs ih =>
      simp only [sortDesc, filter_insertDesc, List.filter_cons, ih]
      by_cases hx : x.priority = k <;> simp [hx]

/-! ### Single-step lemmas -/

theorem step_none {st : AllocState} {p : Process}
    (h : minCand (candidates st.nodes p) = none) :
    allocate_single_process st p = (st, none) := by
  simp [allocate_single_process, h]

theorem step_some {st st' : AllocState} {p : Process} {name : String}
    (h : allocate_single_process st p = (st', some name)) :
    ∃ nd s, minCand (candidates st.nodes p) = some (name, nd, s) ∧
      st' = { nodes := updateNodes st.nodes name
                { nd with cpu := nd.cpu + p.cpu_requirement,
                          memory := nd.memory + p.memory_requirement },
              allocations := appendAlloc st.allocations name p } := by
  rcases hm : minCand (candidates st.nodes p) with _ | ⟨⟨n1, nd, s⟩⟩
  · rw [step_none hm] at h
    exact absurd (congrArg Prod.snd h) (by simp)
  · simp only [allocate_single_process, hm] at h
    have h1 := congrArg Prod.fst h
    have h2 := congrArg Prod.snd h
    simp only [Option.some.injEq] at h2
    rw [h2] at h1
    exact ⟨nd, s, by rw [h2], h1.symm⟩

theorem step_nodes_keys (st : AllocState) (p : Process) :
    ((allocate_single_process st p).1).nodes.map Prod.fst =
      st.nodes.map Prod.fst := by
  rcases hm : minCand (candidates st.nodes p) with _ | ⟨⟨n1, nd, s⟩⟩
  · simp [allocate_single_process, hm]
  · simp [allocate_single_process, hm, updateNodes_keys]

theorem step_allocs_keys (st : AllocState) (p : Process) :
    ((allocate_single_process st p).1).allocations.map Prod.fst =
      st.allocations.map Prod.fst := by
  rcases hm : minCand (candidates st.nodes p) with _ | ⟨⟨n1, nd, s⟩⟩
  · simp [allocate_single_process, hm]
  · simp [allocate_single_process, hm, appendAlloc_keys]

theorem step_nodesOk {st : AllocState} {p : Process} (h : nodesOk st.nodes) :
    nodesOk ((allocate_single_process st p).1).nodes := by
  rcases hm : minCand (candidates st.nodes p) with _ | ⟨⟨n1, nd, s⟩⟩
  · simpa [allocate_single_process, hm] using h
  · simp only [allocate_single_process, hm]
    intro kv hkv
    rcases mem_updateNodes hkv with hin | heq
    · exact h kv hin
    · have hc := minCand_mem hm
      rw [mem_candidates] at hc
      obtain ⟨kv', _, hcap, heq'⟩ := hc
      have hnd : nd = kv'.2 := congrArg (fun t => t.2.1) heq'
      simp only [has_capacity, decide_eq_true_eq] at hcap
      rw [heq, hnd]
      exact ⟨hcap.1, hcap.2⟩

theorem candidates_eq_nil {nodes : List (String × Node)} {p : Process}
    (h : ∀ kv ∈ nodes,
      has_capacity kv.2 p.cpu_requirement p.memory_requirement = false) :
    candidates nodes p = [] := by
  rw [candidates, List.filterMap_eq_nil_iff]
  intro kv hkv
  simp [h kv hkv]

/-! ### Loop lemmas -/

theorem alloc_loop_fst_cons (st : AllocState) (p : Process) (ps : List Process) :
    (alloc_loop st (p :: ps)).1 =
      (alloc_loop (allocate_single_process st p).1 ps).1 := rfl

theorem alloc_loop_snd_cons (st : AllocState) (p : Process) (ps : List Process) :
    (alloc_loop st (p :: ps)).2 =
      match (allocate_single_process st p).2 with
      | some _ => (alloc_loop (allocate_single_process st p).1 ps).2
      | none => p :: (alloc_loop (allocate_single_process st p).1 ps).2 := rfl

theorem loop_nodesOk : ∀ (ps : List Process) (st : AllocState),
    nodesOk st.nodes → nodesOk ((alloc_loop st ps).1).nodes
  | [], _, h => h
  | _ :: ps, _, h => loop_nodesOk ps _ (step_nodesOk h)

theorem loop_nodes_keys : ∀ (ps : List Process) (st : AllocState),
    ((alloc_loop st ps).1).nodes.map Prod.fst = st.nodes.map Prod.fst
  | [], _ => rfl
  | p :: ps, st => (loop_nodes_keys ps _).trans (step_nodes_keys st p)

theorem loop_allocs_keys : ∀ (ps : List Process) (st : AllocState),
    ((alloc_loop st ps).1).allocations.map Prod.fst =
      st.allocations.map Prod.fst
  | [], _ => rfl
  | p :: ps, st => (loop_allocs_keys ps _).trans (step_allocs_keys st p)

theorem chosenNames_cons (st : AllocState) (p : Process) (ps : List Process) :
    chosenNames st (p :: ps) =
      match (allocate_single_process st p).2 with
      | some name => name :: chosenNames (allocate_single_process st p).1 ps
      | none => chosenNames (allocate_single_process st p).1 ps := rfl

/-- An allocation-map entry whose key is not the chosen one survives a
placement step untouched. -/
theorem step_mem_allocations {st : AllocState} {p : Process} {k : String}
    {l : List Process} (hmem : (k, l) ∈ st.allocations)
    (hne : ∀ name, (allocate_single_process st p).2 = some name → k ≠ name) :
    (k, l) ∈ ((allocate_single_process st p).1).allocations := by
  rcases hm : minCand (candidates st.nodes p) with _ | ⟨⟨n1, nd, s⟩⟩
  · simpa [allocate_single_process, hm] using hmem
  · have hk : k ≠ n1 := hne n1 (by simp [allocate_single_process, hm])
    simp only [allocate_single_process, hm]
    exact List.mem_map.mpr ⟨(k, l), hmem, by rw [if_neg hk]⟩

/-- An allocation-map entry whose key is never chosen during the loop
survives the whole loop untouched. -/
theorem loop_unchosen (ps : List Process) : ∀ (st : AllocState) (k : String)
    (l : List Process), (k, l) ∈ st.allocations →
    k ∉ chosenNames st ps →
    (k, l) ∈ ((alloc_loop st ps).1).allocations := by
  induction ps with
  | nil => intro st k l hmem _; exact hmem
  | cons p ps ih =>
      intro st k l hmem hch
      rw [alloc_loop_fst_cons]
      rw [chosenNames_cons] at hch
      rcases h2 : (allocate_single_process st p).2 with _ | name
      · rw [h2] at hch
        simp only at hch
        refine ih _ k l (step_mem_allocations hmem ?_) hch
        intro nm hnm
        rw [h2] at hnm
        cases hnm
      · rw [h2] at hch
        simp only at hch
        rw [List.mem_cons, not_or] at hch
        refine ih _ k l (step_mem_allocations hmem ?_) hch.2
        intro nm hnm
        rw [h2] at hnm
        injection hnm with he
        exact fun hkeq => hch.1 (hkeq.trans he.symm)

/-! ### Service match, monotonicity and frame lemmas -/

theorem service_match_eq_amended (p : Process) (n : Node) :
    service_match p n = service_match_amended p n := by
  rw [service_match, service_match_amended, List.any_map]
  rfl

theorem nodesMono_refl (nodes : List (String × Node)) : nodesMono nodes nodes :=
  List.forall₂_same.mpr fun _ _ => ⟨rfl, le_refl _, le_refl _⟩

theorem nodesMono_trans {a b c : List (String × Node)}
    (h1 : nodesMono a b) (h2 : nodesMono b c) : nodesMono a c := by
  induction h1 generalizing c with
  | nil => cases h2; exact List.Forall₂.nil
  | cons hab _ ih =>
      cases h2 with
      | cons hbc h' =>
          exact List.Forall₂.cons
            ⟨hab.1.trans hbc.1, hab.2.1.trans hbc.2.1, hab.2.2.trans hbc.2.2⟩
            (ih h')

/-- The value stored under the chosen candidate's name is the candidate's
node, provided the registry keys are `Nodup`. -/
theorem chosen_value_eq {st : AllocState} {p : Process} {n1 : String}
    {nd : Node} {s : ℚ} (hnd : (st.nodes.map Prod.fst).Nodup)
    (hm : minCand (candidates st.nodes p) = some (n1, nd, s))
    {a : String × Node} (ha : a ∈ st.nodes) (h1 : a.1 = n1) : a.2 = nd := by
  have hc := minCand_mem hm
  rw [mem_candidates] at hc
  obtain ⟨kv, hkv, _, heq⟩ := hc
  have e1 : n1 = kv.1 := congrArg (fun t => t.1) heq
  have e2 : nd = kv.2 := congrArg (fun t => t.2.1) heq
  rw [e2]
  exact assoc_value_unique hnd
    (by rw [← Prod.mk.eta (p := a), h1, e1] at ha; exact ha)
    (by rw [← Prod.mk.eta (p := kv)] at hkv; exact hkv)

theorem step_nodesMono {st : AllocState} {p : Process}
    (hnd : (st.nodes.map Prod.fst).Nodup)
    (hcpu : 0 ≤ p.cpu_requirement) (hmem : 0 ≤ p.memory_requirement) :
    nodesMono st.nodes ((allocate_single_process st p).1).nodes := by
  rcases hm : minCand (candidates st.nodes p) with _ | ⟨⟨n1, nd, s⟩⟩
  · simp only [allocate_single_process, hm]
    exact nodesMono_refl st.nodes
  · simp only [allocate_single_process, hm]
    apply forall2_map_self
    intro a ha
    by_cases h1 : a.1 = n1
    · have hv : a.2 = nd := chosen_value_eq hnd hm ha h1
      rw [if_pos h1]
      exact ⟨rfl, by rw [hv]; exact le_add_of_nonneg_right hcpu,
        by rw [hv]; exact le_add_of_nonneg_right hmem⟩
    · rw [if_neg h1]
      exact ⟨rfl, le_refl _, le_refl _⟩

theorem loop_nodesMono (ps : List Process) : ∀ (st : AllocState),
    (st.nodes.map Prod.fst).Nodup →
    (∀ p ∈ ps, 0 ≤ p.cpu_requirement ∧ 0 ≤ p.memory_requirement) →
    nodesMono st.nodes ((alloc_loop st ps).1).nodes := by
  induction ps with
  | nil => intro st _ _; exact nodesMono_refl st.nodes
  | cons p ps ih =>
      intro st hnd hreq
      rw [alloc_loop_fst_cons]
      refine nodesMono_trans
        (step_nodesMono hnd (hreq p (List.mem_cons_self _ _)).1
          (hreq p (List.mem_cons_self _ _)).2) ?_
      exact ih _ (by rw [step_nodes_keys]; exact hnd)
        (fun q hq => hreq q (List.mem_cons_of_mem _ hq))

theorem allocGrows_refl (allocs : List (String × List Process)) :
    allocGrows allocs allocs :=
  List.forall₂_same.mpr fun _ _ => ⟨rfl, [], by simp⟩

theorem allocGrows_trans {a b c : List (String × List Process)}
    (h1 : allocGrows a b) (h2 : allocGrows b c) : allocGrows a c := by
  induction h1 generalizing c with
  | nil => cases h2; exact List.Forall₂.nil
  | cons hab _ ih =>
      cases h2 with
      | cons hbc h' =>
          refine List.Forall₂.cons ⟨hab.1.trans hbc.1, ?_⟩ (ih h')
          obtain ⟨l1, e1⟩ := hab.2
          obtain ⟨l2, e2⟩ := hbc.2
          exact ⟨l1 ++ l2, by rw [e2, e1, List.append_assoc]⟩

theorem appendAlloc_grows (allocs : List (String × List Process))
    (name : String) (p : Process) :
    allocGrows allocs (appendAlloc allocs name p) := by
  apply forall2_map_self
  intro a _
  by_cases h : a.1 = name
  · rw [if_pos h]
    exact ⟨rfl, [p], rfl⟩
  · rw [if_neg h]
    exact ⟨rfl, [], by simp⟩

theorem step_allocGrows (st : AllocState) (p : Process) :
    allocGrows st.allocations ((allocate_single_process st p).1).allocations := by
  rcases hm : minCand (candidates st.nodes p) with _ | ⟨⟨n1, nd, s⟩⟩
  · simp only [allocate_single_process, hm]
    exact allocGrows_refl _
  · simp only [allocate_single_process, hm]
    exact appendAlloc_grows _ _ _

theorem loop_allocGrows (ps : List Process) : ∀ (st : AllocState),
    allocGrows st.allocations ((alloc_loop st ps).1).allocations := by
  induction ps with
  | nil => intro st; exact allocGrows_refl _
  | cons p ps ih =>
      intro st
      rw [alloc_loop_fst_cons]
      exact allocGrows_trans (step_allocGrows st p) (ih _)

theorem step_staticsMap {st : AllocState} {p : Process}
    (hnd : (st.nodes.map Prod.fst).Nodup) :
    staticsMap ((allocate_single_process st p).1).nodes =
      staticsMap st.nodes := by
  rcases hm : minCand (candidates st.nodes p) with _ | ⟨⟨n1, nd, s⟩⟩
  · simp only [allocate_single_process, hm]
  · simp only [allocate_single_process, hm, staticsMap, updateNodes,
      List.map_map]
    apply List.map_congr_left
    intro a ha
    by_cases h1 : a.1 = n1
    · have hv : a.2 = nd := chosen_value_eq hnd hm ha h1
      simp [Function.comp, h1, hv, statics]
    · simp [Function.comp, h1]

theorem loop_staticsMap (ps : List Process) : ∀ (st : AllocState),
    (st.nodes.map Prod.fst).Nodup →
    staticsMap ((alloc_loop st ps).1).nodes = staticsMap st.nodes := by
  induction ps with
  | nil => intro st _; rfl
  | cons p ps ih =>
      intro st hnd
      rw [alloc_loop_fst_cons]
      rw [ih _ (by rw [step_nodes_keys]; exact hnd)]
      exact step_staticsMap hnd

/-! ### Counting lemmas for the placement partition -/

theorem totalCount_cons (q : Process) (kv : String × List Process)
    (kvs : List (String × List Process)) :
    totalCount q (kv :: kvs) = kv.2.count q + totalCount q kvs := rfl

theorem totalLen_cons (kv : String × List Process)
    (kvs : List (String × List Process)) :
    totalLen (kv :: kvs) = kv.2.length + totalLen kvs := rfl

theorem appendAlloc_id {allocs : List (String × List Process)} {name : String}
    (h : name ∉ allocs.map Prod.fst) (p : Process) :
    appendAlloc allocs name p = allocs := by
  induction allocs with
  | nil => rfl
  | cons kv kvs ih =>
      simp only [List.map_cons, List.mem_cons, not_or] at h
      show (if kv.1 = name then (kv.1, kv.2 ++ [p]) else kv) ::
        appendAlloc kvs name p = kv :: kvs
      rw [if_neg (fun he => h.1 he.symm), ih h.2]

theorem totalCount_appendAlloc (q p : Process) :
    ∀ (allocs : List (String × List Process)) (name : String),
    (allocs.map Prod.fst).Nodup → name ∈ allocs.map Prod.fst →
    totalCount q (appendAlloc allocs name p) =
      totalCount q allocs + [p].count q := by
  intro allocs
  induction allocs with
  | nil => intro name _ hmem; cases hmem
  | cons kv kvs ih =>
      intro name hnd hmem
      simp only [List.map_cons, List.nodup_cons] at hnd
      show totalCount q ((if kv.1 = name then (kv.1, kv.2 ++ [p]) else kv) ::
        appendAlloc kvs name p) = _
      rcases List.mem_cons.mp hmem with hhead | htail
      · rw [if_pos hhead.symm]
        rw [appendAlloc_id (by rw [hhead]; exact hnd.1) p]
        rw [totalCount_cons, totalCount_cons, List.count_append]
        omega
      · have hne : kv.1 ≠ name := fun he => hnd.1 (he ▸ htail)
        rw [if_neg hne, totalCount_cons, totalCount_cons, ih name hnd.2 htail]
        omega

theorem totalLen_appendAlloc (p : Process) :
    ∀ (allocs : List (String × List Process)) (name : String),
    (allocs.map Prod.fst).Nodup → name ∈ allocs.map Prod.fst →
    totalLen (appendAlloc allocs name p) = totalLen allocs + 1 := by
  intro allocs
  induction allocs with
  | nil => intro name _ hmem; cases hmem
  | cons kv kvs ih =>
      intro name hnd hmem
      simp only [List.map_cons, List.nodup_cons] at hnd
      show totalLen ((if kv.1 = name then (kv.1, kv.2 ++ [p]) else kv) ::
        appendAlloc kvs name p) = _
      rcases List.mem_cons.mp hmem with hhead | htail
      · rw [if_pos hhead.symm]
        rw [appendAlloc_id (by rw [hhead]; exact hnd.1) p]
        rw [totalLen_cons, totalLen_cons, List.length_append,
          List.length_singleton]
        omega
      · have hne : kv.1 ≠ name := fun he => hnd.1 (he ▸ htail)
        rw [if_neg hne, totalLen_cons, totalLen_cons, ih name hnd.2 htail]
        omega

theorem mkState_allocs_keys (nodes : List (String × Node)) :
    (mkState nodes).allocations.map Prod.fst = nodes.map Prod.fst := by
  simp [mkState]

theorem totalCount_mkState (q : Process) (nodes : List (String × Node)) :
    totalCount q (mkState nodes).allocations = 0 := by
  induction nodes with
  | nil => rfl
  | cons kv kvs ih => simpa [mkState, totalCount_cons] using ih

theorem totalLen_mkState (nodes : List (String × Node)) :
    totalLen (mkState nodes).allocations = 0 := by
  induction nodes with
  | nil => rfl
  | cons kv kvs ih => simpa [mkState, totalLen_cons] using ih

theorem step_none_inv {st st1 : AllocState} {p : Process}
    (h : allocate_single_process st p = (st1, none)) : st1 = st := by
  rcases hm : minCand (candidates st.nodes p) with _ | ⟨⟨n1, nd, s⟩⟩
  · rw [step_none hm] at h
    exact (congrArg Prod.fst h).symm
  · simp only [allocate_single_process, hm] at h
    exact absurd (congrArg Prod.snd h) (by simp)

/-- The chosen node's name is a key of the registry. -/
theorem chosen_mem_keys {st : AllocState} {p : Process} {n1 : String}
    {nd : Node} {s : ℚ}
    (hm : minCand (candidates st.nodes p) = some (n1, nd, s)) :
    n1 ∈ st.nodes.map Prod.fst := by
  have hc := minCand_mem hm
  rw [mem_candidates] at hc
  obtain ⟨kv, hkv, _, heq⟩ := hc
  have e1 : n1 = kv.1 := congrArg (fun t => t.1) heq
  rw [e1]
  exact List.mem_map.mpr ⟨kv, hkv, rfl⟩

theorem loop_partition_count (q : Process) (ps : List Process) :
    ∀ (st : AllocState),
    (st.allocations.map Prod.fst).Nodup →
    (∀ n ∈ st.nodes.map Prod.fst, n ∈ st.allocations.map Prod.fst) →
    totalCount q ((alloc_loop st ps).1).allocations +
      ((alloc_loop st ps).2).count q =
    totalCount q st.allocations + ps.count q := by
  induction ps with
  | nil => intro st _ _; simp [alloc_loop]
  | cons p ps ih =>
      intro st hnd hsub
      rcases hstep : allocate_single_process st p with ⟨st1, res⟩
      have hak : st1.allocations.map Prod.fst = st.allocations.map Prod.fst := by
        rw [← step_allocs_keys st p, hstep]
      have hnk : st1.nodes.map Prod.fst = st.nodes.map Prod.fst := by
        rw [← step_nodes_keys st p, hstep]
      have ih1 := ih st1 (by rw [hak]; exact hnd)
        (fun n hn => by rw [hak]; exact hsub n (by rw [← hnk]; exact hn))
      have e1 : (alloc_loop st (p :: ps)).1 = (alloc_loop st1 ps).1 := by
        rw [alloc_loop_fst_cons, hstep]
      cases res with
      | none =>
          have hid : st1 = st := step_none_inv hstep
          subst hid
          have e2 : (alloc_loop st1 (p :: ps)).2 = p :: (alloc_loop st1 ps).2 := by
            rw [alloc_loop_snd_cons, hstep]
          rw [e1, e2, List.count_cons, List.count_cons]
          omega
      | some name =>
          obtain ⟨nd, s, hm, hst1⟩ := step_some hstep
          have hkey : name ∈ st.allocations.map Prod.fst :=
            hsub name (chosen_mem_keys hm)
          have hcnt : totalCount q st1.allocations =
              totalCount q st.allocations + [p].count q := by
            rw [hst1]
            exact totalCount_appendAlloc q p st.allocations name hnd hkey
          have e2 : (alloc_loop st (p :: ps)).2 = (alloc_loop st1 ps).2 := by
            rw [alloc_loop_snd_cons, hstep]
          rw [e1, e2, ih1, hcnt, List.count_cons, List.count_cons,
            List.count_nil]
          omega

theorem loop_partition_len (ps : List Process) :
    ∀ (st : AllocState),
    (st.allocations.map Prod.fst).Nodup →
    (∀ n ∈ st.nodes.map Prod.fst, n ∈ st.allocations.map Prod.fst) →
    totalLen ((alloc_loop st ps).1).allocations +
      ((alloc_loop st ps).2).length =
    totalLen st.allocations + ps.length := by
  induction ps with
  | nil => intro st _ _; simp [alloc_loop]
  | cons p ps ih =>
      intro st hnd hsub
      rcases hstep : allocate_single_process st p with ⟨st1, res⟩
      have hak : st1.allocations.map Prod.fst = st.allocations.map Prod.fst := by
        rw [← step_allocs_keys st p, hstep]
      have hnk : st1.nodes.map Prod.fst = st.nodes.map Prod.fst := by
        rw [← step_nodes_keys st p, hstep]
      have ih1 := ih st1 (by rw [hak]; exact hnd)
        (fun n hn => by rw [hak]; exact hsub n (by rw [← hnk]; exact hn))
      have e1 : (alloc_loop st (p :: ps)).1 = (alloc_loop st1 ps).1 := by
        rw [alloc_loop_fst_cons, hstep]
      cases res with
      | none =>
          have hid : st1 = st := step_none_inv hstep
          subst hid
          have e2 : (alloc_loop st1 (p :: ps)).2 = p :: (alloc_loop st1 ps).2 := by
            rw [alloc_loop_snd_cons, hstep]
          rw [e1, e2, List.length_cons, List.length_cons]
          omega
      | some name =>
          obtain ⟨nd, s, hm, hst1⟩ := step_some hstep
          have hkey : name ∈ st.allocations.map Prod.fst :=
            hsub name (chosen_mem_keys hm)
          have hlen : totalLen st1.allocations = totalLen st.allocations + 1 := by
            rw [hst1]
            exact totalLen_appendAlloc p st.allocations name hnd hkey
          have e2 : (alloc_loop st (p :: ps)).2 = (alloc_loop st1 ps).2 := by
            rw [alloc_loop_snd_cons, hstep]
          rw [e1, e2, ih1, hlen, List.length_cons]
          omega

/-! ### Claims -/

/-- C1: Capacity invariant — if every node initially satisfies `cpu ≤ 90`
and `memory ≤ 18` and every workload has non-negative requirements, then
after every individual commit (first conjunct: any single
`_allocate_single_process` step preserves the invariant) and in the final
state of the allocation pass (second conjunct), every node still satisfies
`cpu ≤ 90` and `memory ≤ 18`. -/
theorem C1_capacity_invariant (st : AllocState) (ps : List Process)
    (hok : nodesOk st.nodes)
    (_hreq : ∀ p ∈ ps, 0 ≤ p.cpu_requirement ∧ 0 ≤ p.memory_requirement) :
    (∀ (st₀ : AllocState) (p : Process), nodesOk st₀.nodes →
      nodesOk ((allocate_single_process st₀ p).1).nodes) ∧
    nodesOk (((allocate_processes st ps).1).nodes) :=
  ⟨fun _ _ h => step_nodesOk h, loop_nodesOk _ _ hok⟩

/-- Witness for C1: a concrete one-node registry and one workload. -/
theorem C1_capacity_invariant_witness :
    nodesOk (((allocate_processes
      (mkState [("EdgeA", Node.mk "EdgeA" 10 520 0 40 4 ["RPCCall"])])
      [Process.mk "P1" 15 2 "Analytics" 3]).1).nodes) :=
  (C1_capacity_invariant _ _
    (by intro kv hkv; simp [mkState] at hkv; rw [hkv]; norm_num)
    (by intro p hp; simp at hp; rw [hp]; norm_num)).2

/-- C3: Greedy minimality — whenever a workload is placed, the chosen node
appears in the candidate list (capacity-satisfying nodes, scored against
the node states at the moment of the decision) and its placement score is
less than or equal to every candidate's score. -/
theorem C3_greedy_minimality (st st' : AllocState) (p : Process) (name : String)
    (h : allocate_single_process st p = (st', some name)) :
    ∃ nd s, (name, nd, s) ∈ candidates st.nodes p ∧
      ∀ c ∈ candidates st.nodes p, s ≤ c.2.2 := by
  obtain ⟨nd, s, hm, _⟩ := step_some h
  exact ⟨nd, s, minCand_mem hm, fun c hc => minCand_le hm c hc⟩

/-- Witness for C3: the single node of a one-node registry is chosen and is
minimal among the candidates. -/
theorem C3_greedy_minimality_witness :
    ∃ nd s,
      ("EdgeA", nd, s) ∈ candidates
        [("EdgeA", Node.mk "EdgeA" 10 520 0 40 4 ["RPCCall"])]
        (Process.mk "P1" 15 2 "Analytics" 3) ∧
      ∀ c ∈ candidates
        [("EdgeA", Node.mk "EdgeA" 10 520 0 40 4 ["RPCCall"])]
        (Process.mk "P1" 15 2 "Analytics" 3), s ≤ c.2.2 := by
  have hcap : has_capacity (Node.mk "EdgeA" 10 520 0 40 4 ["RPCCall"])
      (15 : ℚ) (2 : ℚ) = true := by
    simp only [has_capacity, decide_eq_true_eq]
    norm_num
  have hcands : candidates
      [("EdgeA", Node.mk "EdgeA" 10 520 0 40 4 ["RPCCall"])]
      (Process.mk "P1" 15 2 "Analytics" 3) =
      [("EdgeA", Node.mk "EdgeA" 10 520 0 40 4 ["RPCCall"],
        placement_score (Process.mk "P1" 15 2 "Analytics" 3)
          (Node.mk "EdgeA" 10 520 0 40 4 ["RPCCall"]))] := by
    simp [candidates, hcap]
  exact C3_greedy_minimality
    ⟨[("EdgeA", Node.mk "EdgeA" 10 520 0 40 4 ["RPCCall"])], [("EdgeA", [])]⟩
    ⟨[("EdgeA", Node.mk "EdgeA" 10 520 0 (40 + 15) (4 + 2) ["RPCCall"])],
      [("EdgeA", [Process.mk "P1" 15 2 "Analytics" 3])]⟩
    (Process.mk "P1" 15 2 "Analytics" 3) "EdgeA"
    (by simp [allocate_single_process, hcands, minCand, minScan,
      updateNodes, appendAlloc])

/-- C4: Priority ordering — the allocator iterates over
`sortDesc ps` (fourth conjunct, definitional), which is sorted by
non-increasing priority (so a higher-priority workload is attempted
strictly before any lower-priority one), keeps equal-priority workloads in
their input order (stable tie-breaking, stated via `filter`), and is a
permutation of the input batch. -/
theorem C4_priority_ordering (ps : List Process) :
    (sortDesc ps).Pairwise (fun a b => b.priority ≤ a.priority) ∧
    (∀ k : ℤ, (sortDesc ps).filter (fun q => decide (q.priority = k)) =
      ps.filter (fun q => decide (q.priority = k))) ∧
    List.Perm (sortDesc ps) ps ∧
    ∀ st : AllocState, allocate_processes st ps = alloc_loop st (sortDesc ps) :=
  ⟨sortDesc_pairwise ps, fun k => filter_sortDesc k ps, sortDesc_perm ps,
    fun _ => rfl⟩

/-- C5: Failure semantics — if no node passes the capacity gate for a
workload, that workload is left unplaced: the step returns the state
unchanged (no node's cpu/memory modified, no allocation list modified) with
no chosen node, and the loop still processes the remaining workloads,
recording the workload as failed. -/
theorem C5_failure_semantics (st : AllocState) (p : Process) (ps : List Process)
    (h : ∀ kv ∈ st.nodes,
      has_capacity kv.2 p.cpu_requirement p.memory_requirement = false) :
    allocate_single_process st p = (st, none) ∧
    (alloc_loop st (p :: ps)).1 = (alloc_loop st ps).1 ∧
    (alloc_loop st (p :: ps)).2 = p :: (alloc_loop st ps).2 := by
  have hnone : minCand (candidates st.nodes p) = none := by
    rw [minCand_eq_none]
    exact candidates_eq_nil h
  have hstep := step_none hnone
  refine ⟨hstep, ?_, ?_⟩
  · rw [alloc_loop_fst_cons, hstep]
  · simp only [alloc_loop, hstep]

/-- Witness for C5: a saturated one-node registry rejects the workload and
the loop carries on. -/
theorem C5_failure_semantics_witness :
    allocate_single_process
      ⟨[("CoreX", Node.mk "CoreX" 7 980 0 89 17 ["TransactionCommit"])],
        [("CoreX", [])]⟩
      (Process.mk "P4" 18 3 "TransactionCommit" 3) =
      (⟨[("CoreX", Node.mk "CoreX" 7 980 0 89 17 ["TransactionCommit"])],
        [("CoreX", [])]⟩, none) :=
  (C5_failure_semantics _ _ []
    (by
      intro kv hkv
      simp at hkv
      rw [hkv]
      simp only [has_capacity, decide_eq_false_iff_not]
      intro hc
      exact absurd hc.1 (by norm_num))).1

/-- C9: Empty batch — the allocation pass over an empty batch returns the
constructed state unchanged (no failures); the allocation map of that state
has every registry node as a key, mapped to the empty list, and the node
list is exactly the registry passed at construction. -/
theorem C9_empty_batch (nodes : List (String × Node)) :
    allocate_processes (mkState nodes) [] = (mkState nodes, []) ∧
    (mkState nodes).allocations =
      nodes.map (fun kv => (kv.1, ([] : List Process))) ∧
    (mkState nodes).nodes = nodes :=
  ⟨rfl, rfl, rfl⟩

/-- C10: Allocation-map key stability — for every batch, the key list of
the returned allocation map is exactly the node-name list of the registry
at construction time (first conjunct), no single placement step ever adds
or removes a key (second conjunct), and a registry node whose name is
never chosen for any placement of the run still appears in the returned
map, mapped to an empty list (third conjunct). -/
theorem C10_key_stability (nodes : List (String × Node)) (ps : List Process) :
    ((allocate_processes (mkState nodes) ps).1).allocations.map Prod.fst =
      nodes.map Prod.fst ∧
    (∀ (st : AllocState) (p : Process),
      ((allocate_single_process st p).1).allocations.map Prod.fst =
        st.allocations.map Prod.fst) ∧
    ∀ kv ∈ nodes, kv.1 ∉ chosenNames (mkState nodes) (sortDesc ps) →
      (kv.1, ([] : List Process)) ∈
        ((allocate_processes (mkState nodes) ps).1).allocations := by
  refine ⟨?_, step_allocs_keys, ?_⟩
  · rw [allocate_processes, loop_allocs_keys]
    simp [mkState]
  · intro kv hkv hch
    have hinit : (kv.1, ([] : List Process)) ∈ (mkState nodes).allocations :=
      List.mem_map.mpr ⟨kv, hkv, rfl⟩
    exact loop_unchosen (sortDesc ps) (mkState nodes) kv.1 [] hinit hch

/-- Witness for C10: a saturated one-node registry rejects the only
workload, so the node is never chosen and its allocation list stays
empty. -/
theorem C10_key_stability_witness :
    ("CoreX", ([] : List Process)) ∈
      ((allocate_processes
        (mkState [("CoreX", Node.mk "CoreX" 7 980 0 89 17 ["TransactionCommit"])])
        [Process.mk "P4" 18 3 "TransactionCommit" 3]).1).allocations := by
  have hcap : has_capacity (Node.mk "CoreX" 7 980 0 89 17 ["TransactionCommit"])
      (18 : ℚ) (3 : ℚ) = false := by
    simp only [has_capacity, decide_eq_false_iff_not]
    intro hc
    exact absurd hc.1 (by norm_num)
  have hcands : candidates
      [("CoreX", Node.mk "CoreX" 7 980 0 89 17 ["TransactionCommit"])]
      (Process.mk "P4" 18 3 "TransactionCommit" 3) = [] := by
    simp [candidates, hcap]
  exact (C10_key_stability
    [("CoreX", Node.mk "CoreX" 7 980 0 89 17 ["TransactionCommit"])]
    [Process.mk "P4" 18 3 "TransactionCommit" 3]).2.2
    ("CoreX", Node.mk "CoreX" 7 980 0 89 17 ["TransactionCommit"])
    (by simp)
    (by simp [sortDesc, insertDesc, chosenNames, allocate_single_process,
      mkState, hcands, minCand])

/-- C2 counterexample: a node declaring service "ab" and a workload with
`service_type` "a" pass the capacity gate, but the score the code computes
(no service match, since "ab" is not a substring of "a"; bonus 0.2)
differs from the value of the claimed formula, whose bidirectional
substring match ("a" occurs in "ab") grants bonus 0.  The claim's formula
therefore does not describe the code. -/
theorem C2_score_formula_counterexample :
    has_capacity (Node.mk "N" 0 0 0 0 0 ["ab"]) (0 : ℚ) (0 : ℚ) = true ∧
    ("N", Node.mk "N" 0 0 0 0 0 ["ab"],
        placement_score (Process.mk "P" 0 0 "a" 1) (Node.mk "N" 0 0 0 0 0 ["ab"]))
      ∈ candidates [("N", Node.mk "N" 0 0 0 0 0 ["ab"])]
          (Process.mk "P" 0 0 "a" 1) ∧
    placement_score (Process.mk "P" 0 0 "a" 1) (Node.mk "N" 0 0 0 0 0 ["ab"]) ≠
      placement_score_spec (Process.mk "P" 0 0 "a" 1)
        (Node.mk "N" 0 0 0 0 0 ["ab"]) := by
  have hcap : has_capacity (Node.mk "N" 0 0 0 0 0 ["ab"]) (0 : ℚ) (0 : ℚ) = true := by
    simp only [has_capacity, decide_eq_true_eq]
    norm_num
  refine ⟨hcap, by simp [candidates, hcap], ?_⟩
  have h1 : service_match (Process.mk "P" 0 0 "a" 1)
      (Node.mk "N" 0 0 0 0 0 ["ab"]) = false := by decide
  have h2 : service_match_spec (Process.mk "P" 0 0 "a" 1)
      (Node.mk "N" 0 0 0 0 0 ["ab"]) = true := by decide
  rw [placement_score, placement_score_spec, h1, h2]
  norm_num [calculate_load_score]

/-- C2 (amended): for every workload, the placement score of every node
that passes the capacity gate (i.e. of every entry of the candidate list
used for selection) equals
`load_score * 0.5 + (latency/30) * 0.3 + service_bonus`, where the bonus is
0 if some declared service name of the node, lowercased, occurs as a
substring of the workload's lowercased `service_type` (one direction only),
and 0.2 otherwise; and `load_score` equals
`(cpu/100)*0.6 + (memory/20)*0.3 + (latency/30)*0.1`. -/
theorem C2_score_formula (p : Process) (nodes : List (String × Node))
    (name : String) (nd : Node) (s : ℚ)
    (h : (name, nd, s) ∈ candidates nodes p) :
    s = calculate_load_score nd * 0.5 + (nd.latency / 30) * 0.3 +
      (if service_match_amended p nd then 0 else 0.2) ∧
    calculate_load_score nd =
      (nd.cpu / 100) * 0.6 + (nd.memory / 20) * 0.3 + (nd.latency / 30) * 0.1 := by
  rw [mem_candidates] at h
  obtain ⟨kv, _, _, heq⟩ := h
  have e2 : nd = kv.2 := congrArg (fun t => t.2.1) heq
  have e3 : s = placement_score p kv.2 := congrArg (fun t => t.2.2) heq
  refine ⟨?_, rfl⟩
  rw [e3, ← e2, placement_score, service_match_eq_amended]

/-- Witness for C2 (amended) at a concrete candidate. -/
theorem C2_score_formula_witness :
    placement_score (Process.mk "P4" 18 3 "TransactionCommit" 3)
        (Node.mk "CoreX" 7 980 0 65 8 ["TransactionCommit"]) =
      calculate_load_score (Node.mk "CoreX" 7 980 0 65 8 ["TransactionCommit"]) * 0.5 +
        ((Node.mk "CoreX" 7 980 0 65 8 ["TransactionCommit"]).latency / 30) * 0.3 +
        (if service_match_amended (Process.mk "P4" 18 3 "TransactionCommit" 3)
            (Node.mk "CoreX" 7 980 0 65 8 ["TransactionCommit"])
         then 0 else 0.2) ∧
    calculate_load_score (Node.mk "CoreX" 7 980 0 65 8 ["TransactionCommit"]) =
      ((Node.mk "CoreX" 7 980 0 65 8 ["TransactionCommit"]).cpu / 100) * 0.6 +
      ((Node.mk "CoreX" 7 980 0 65 8 ["TransactionCommit"]).memory / 20) * 0.3 +
      ((Node.mk "CoreX" 7 980 0 65 8 ["TransactionCommit"]).latency / 30) * 0.1 := by
  have hcap : has_capacity (Node.mk "CoreX" 7 980 0 65 8 ["TransactionCommit"])
      (18 : ℚ) (3 : ℚ) = true := by
    simp only [has_capacity, decide_eq_true_eq]
    norm_num
  exact C2_score_formula (Process.mk "P4" 18 3 "TransactionCommit" 3)
    [("CoreX", Node.mk "CoreX" 7 980 0 65 8 ["TransactionCommit"])] "CoreX"
    (Node.mk "CoreX" 7 980 0 65 8 ["TransactionCommit"]) _
    (by simp [candidates, hcap])

/-- C6: Frame / no retroactive change — a successful commit changes the
allocation map only by appending the committed workload to the chosen
node's list (first conjunct) and changes no field of any non-chosen node
and no static field of the chosen node (second conjunct); across a whole
allocation pass, every node keeps its name, latency, throughput,
packet_loss and services (third conjunct) and every allocation list only
ever grows, so no later placement alters a previously recorded commitment
(fourth conjunct). -/
theorem C6_frame_no_retroactive_change (st st' : AllocState) (p : Process)
    (name : String) (ps : List Process)
    (hnd : (st.nodes.map Prod.fst).Nodup)
    (h : allocate_single_process st p = (st', some name)) :
    List.Forall₂ (fun a b => a.1 = b.1 ∧
      b.2 = if a.1 = name then a.2 ++ [p] else a.2)
      st.allocations st'.allocations ∧
    List.Forall₂ (fun a b => a.1 = b.1 ∧ statics b.2 = statics a.2 ∧
      (a.1 ≠ name → b = a)) st.nodes st'.nodes ∧
    staticsMap ((alloc_loop st ps).1).nodes = staticsMap st.nodes ∧
    allocGrows st.allocations ((alloc_loop st ps).1).allocations := by
  obtain ⟨nd, s, hm, hst⟩ := step_some h
  refine ⟨?_, ?_, loop_staticsMap ps st hnd, loop_allocGrows ps st⟩
  · rw [hst]
    apply forall2_map_self
    intro a _
    by_cases h1 : a.1 = name <;> simp [h1]
  · rw [hst]
    apply forall2_map_self
    intro a ha
    by_cases h1 : a.1 = name
    · have hv : a.2 = nd := chosen_value_eq hnd hm ha h1
      rw [if_pos h1]
      exact ⟨rfl, by rw [hv]; rfl, fun hne => absurd h1 hne⟩
    · rw [if_neg h1]
      exact ⟨rfl, rfl, fun _ => rfl⟩

/-- Witness for C6: concrete one-node commit; the extracted conjunct states
that the static fields survive the (empty) remainder of the pass. -/
theorem C6_frame_no_retroactive_change_witness :
    staticsMap ((alloc_loop
      ⟨[("EdgeA", Node.mk "EdgeA" 10 520 0 40 4 ["RPCCall"])], [("EdgeA", [])]⟩
      []).1).nodes =
      staticsMap [("EdgeA", Node.mk "EdgeA" 10 520 0 40 4 ["RPCCall"])] := by
  have hcap : has_capacity (Node.mk "EdgeA" 10 520 0 40 4 ["RPCCall"])
      (15 : ℚ) (2 : ℚ) = true := by
    simp only [has_capacity, decide_eq_true_eq]
    norm_num
  have hcands : candidates
      [("EdgeA", Node.mk "EdgeA" 10 520 0 40 4 ["RPCCall"])]
      (Process.mk "P1" 15 2 "Analytics" 3) =
      [("EdgeA", Node.mk "EdgeA" 10 520 0 40 4 ["RPCCall"],
        placement_score (Process.mk "P1" 15 2 "Analytics" 3)
          (Node.mk "EdgeA" 10 520 0 40 4 ["RPCCall"]))] := by
    simp [candidates, hcap]
  exact (C6_frame_no_retroactive_change
    ⟨[("EdgeA", Node.mk "EdgeA" 10 520 0 40 4 ["RPCCall"])], [("EdgeA", [])]⟩
    ⟨[("EdgeA", Node.mk "EdgeA" 10 520 0 (40 + 15) (4 + 2) ["RPCCall"])],
      [("EdgeA", [Process.mk "P1" 15 2 "Analytics" 3])]⟩
    (Process.mk "P1" 15 2 "Analytics" 3) "EdgeA" []
    (by simp)
    (by simp [allocate_single_process, hcands, minCand, minScan,
      updateNodes, appendAlloc])).2.2.1

/-- C7: Monotonic commit — with `Nodup` registry keys and non-negative
requirements, a single placement step never decreases any node's cpu or
memory (first conjunct), and neither does the whole allocation pass
(second conjunct). -/
theorem C7_monotonic_commit (st : AllocState) (ps : List Process)
    (hnd : (st.nodes.map Prod.fst).Nodup)
    (hreq : ∀ p ∈ ps, 0 ≤ p.cpu_requirement ∧ 0 ≤ p.memory_requirement) :
    (∀ (st₀ : AllocState) (p : Process), (st₀.nodes.map Prod.fst).Nodup →
      0 ≤ p.cpu_requirement → 0 ≤ p.memory_requirement →
      nodesMono st₀.nodes ((allocate_single_process st₀ p).1).nodes) ∧
    nodesMono st.nodes (((allocate_processes st ps).1).nodes) :=
  ⟨fun _ _ h hc hm => step_nodesMono h hc hm,
   loop_nodesMono (sortDesc ps) st hnd
     (fun q hq => hreq q ((sortDesc_perm ps).subset hq))⟩

/-- Witness for C7: a concrete one-node run. -/
theorem C7_monotonic_commit_witness :
    nodesMono [("EdgeA", Node.mk "EdgeA" 10 520 0 40 4 ["RPCCall"])]
      (((allocate_processes
        ⟨[("EdgeA", Node.mk "EdgeA" 10 520 0 40 4 ["RPCCall"])], [("EdgeA", [])]⟩
        [Process.mk "P1" 15 2 "Analytics" 3]).1).nodes) :=
  (C7_monotonic_commit
    ⟨[("EdgeA", Node.mk "EdgeA" 10 520 0 40 4 ["RPCCall"])], [("EdgeA", [])]⟩
    [Process.mk "P1" 15 2 "Analytics" 3]
    (by simp)
    (by intro p hp; simp at hp; rw [hp]; norm_num)).2

/-- C8: Placement partition — with duplicate-free registry keys, every
process value occurs across all allocation lists plus the unplaced list
exactly as often as in the input batch (first conjunct); the number of
placed workloads plus the number of unplaced workloads equals the batch
size (second conjunct); and for a duplicate-free batch, every workload is
either placed exactly once (appearing in the allocation lists exactly once
in total and not among the unplaced) or left unplaced (appearing exactly
once there and in no allocation list) — third conjunct. -/
theorem C8_placement_partition (nodes : List (String × Node)) (ps : List Process)
    (hnd : (nodes.map Prod.fst).Nodup) :
    (∀ q : Process,
      totalCount q ((allocate_processes (mkState nodes) ps).1).allocations +
        ((allocate_processes (mkState nodes) ps).2).count q = ps.count q) ∧
    (totalLen ((allocate_processes (mkState nodes) ps).1).allocations +
      ((allocate_processes (mkState nodes) ps).2).length = ps.length) ∧
    (ps.Nodup → ∀ q ∈ ps,
      (totalCount q ((allocate_processes (mkState nodes) ps).1).allocations = 1 ∧
        ((allocate_processes (mkState nodes) ps).2).count q = 0) ∨
      (totalCount q ((allocate_processes (mkState nodes) ps).1).allocations = 0 ∧
        ((allocate_processes (mkState nodes) ps).2).count q = 1)) := by
  have hknd : ((mkState nodes).allocations.map Prod.fst).Nodup := by
    rw [mkState_allocs_keys]
    exact hnd
  have hsub : ∀ n ∈ (mkState nodes).nodes.map Prod.fst,
      n ∈ (mkState nodes).allocations.map Prod.fst := by
    intro n hn
    rw [mkState_allocs_keys]
    exact hn
  have hcount : ∀ q : Process,
      totalCount q ((allocate_processes (mkState nodes) ps).1).allocations +
        ((allocate_processes (mkState nodes) ps).2).count q = ps.count q := by
    intro q
    have h := loop_partition_count q (sortDesc ps) (mkState nodes) hknd hsub
    rw [totalCount_mkState, Nat.zero_add, (sortDesc_perm ps).count_eq] at h
    exact h
  refine ⟨hcount, ?_, ?_⟩
  · have h := loop_partition_len (sortDesc ps) (mkState nodes) hknd hsub
    rw [totalLen_mkState, Nat.zero_add, (sortDesc_perm ps).length_eq] at h
    exact h
  · intro hps q hq
    have h1 := hcount q
    rw [List.count_eq_one_of_mem hps hq] at h1
    omega

/-- Witness for C8: a one-node registry and a one-workload batch; the
number of placed plus unplaced workloads is 1. -/
theorem C8_placement_partition_witness :
    totalLen ((allocate_processes
        (mkState [("EdgeA", Node.mk "EdgeA" 10 520 0 40 4 ["RPCCall"])])
        [Process.mk "P1" 15 2 "Analytics" 3]).1).allocations +
      ((allocate_processes
        (mkState [("EdgeA", Node.mk "EdgeA" 10 520 0 40 4 ["RPCCall"])])
        [Process.mk "P1" 15 2 "Analytics" 3]).2).length = 1 :=
  (C8_placement_partition
    [("EdgeA", Node.mk "EdgeA" 10 520 0 40 4 ["RPCCall"])]
    [Process.mk "P1" 15 2 "Analytics" 3] (by simp)).2.1

